import Mathlib

/-!
Verification of the penrose window-manager configuration (src/src/main.rs)
against its design specification.  The configuration script wires together
the penrose library's layout engine, state model, hook pipeline and
keybindings; the library components it calls are not part of this source
tree and are modelled from the specification, as marked on each definition.
-/

namespace Penrose

/-! ### Screen geometry -/

/-- A screen region: position plus size, in pixels. -/
structure Rect where
  x : Nat
  y : Nat
  w : Nat
  h : Nat
deriving DecidableEq, Repr

/-- The point `p` lies inside the rectangle `r`. -/
def Rect.Mem (p : Nat × Nat) (r : Rect) : Prop :=
  r.x ≤ p.1 ∧ p.1 < r.x + r.w ∧ r.y ≤ p.2 ∧ p.2 < r.y + r.h

instance (p : Nat × Nat) (r : Rect) : Decidable (Rect.Mem p r) := by
  unfold Rect.Mem; infer_instance

/-- Two rectangles are disjoint when no point lies in both. -/
def Rect.Disjoint (a b : Rect) : Prop :=
  ∀ p : Nat × Nat, ¬ (Rect.Mem p a ∧ Rect.Mem p b)

/-- Swap the two axes of a rectangle. -/
def Rect.transpose (r : Rect) : Rect := ⟨r.y, r.x, r.h, r.w⟩

theorem Rect.mem_transpose (p : Nat × Nat) (r : Rect) :
    Rect.Mem p r.transpose ↔ Rect.Mem (p.2, p.1) r := by
  unfold Rect.Mem Rect.transpose
  dsimp
  tauto

/-- Modelled from the spec: row `i` of an even vertical split of `r` into `k`
rows; the last row absorbs the rounding slack so that the rows tile `r`
exactly. -/
def rowRect (r : Rect) (k i : Nat) : Rect :=
  ⟨r.x, r.y + i * (r.h / k), r.w,
    if i + 1 = k then r.h - i * (r.h / k) else r.h / k⟩

/-- Modelled from the spec: tile `k` clients as equal-height rows of `r`. -/
def splitRows (r : Rect) (k : Nat) : List Rect :=
  (List.range k).map (rowRect r k)

theorem splitRows_length (r : Rect) (k : Nat) : (splitRows r k).length = k := by
  simp [splitRows]

theorem mul_div_le_of_lt {i k h : Nat} (hik : i < k) : i * (h / k) ≤ h :=
  calc i * (h / k) ≤ k * (h / k) := Nat.mul_le_mul_right _ (Nat.le_of_lt hik)
    _ = h / k * k := Nat.mul_comm _ _
    _ ≤ h := Nat.div_mul_le_self h k

/-- Characterisation of membership in row `i` of `k`. -/
theorem mem_rowRect {r : Rect} {k i : Nat} (hik : i < k) (p : Nat × Nat) :
    Rect.Mem p (rowRect r k i) ↔
      r.x ≤ p.1 ∧ p.1 < r.x + r.w ∧ r.y + i * (r.h / k) ≤ p.2 ∧
        p.2 < r.y + (if i + 1 = k then r.h else (i + 1) * (r.h / k)) := by
  have hle : i * (r.h / k) ≤ r.h := mul_div_le_of_lt hik
  have hsucc : (i + 1) * (r.h / k) = i * (r.h / k) + r.h / k := Nat.succ_mul _ _
  unfold Rect.Mem rowRect
  dsimp
  by_cases hk : i + 1 = k
  · simp only [hk, if_pos rfl, if_true]
    omega
  · simp only [if_neg hk]
    omega

/-- Each row lies inside its parent region. -/
theorem rowRect_subset {r : Rect} {k i : Nat} (hik : i < k) (p : Nat × Nat)
    (hp : Rect.Mem p (rowRect r k i)) : Rect.Mem p r := by
  rw [mem_rowRect hik] at hp
  have hle : i * (r.h / k) ≤ r.h := mul_div_le_of_lt hik
  have hsle : (i + 1) * (r.h / k) ≤ r.h := by
    calc (i + 1) * (r.h / k) ≤ k * (r.h / k) := Nat.mul_le_mul_right _ hik
      _ = r.h / k * k := Nat.mul_comm _ _
      _ ≤ r.h := Nat.div_mul_le_self r.h k
  unfold Rect.Mem
  by_cases hk : i + 1 = k
  · rw [if_pos hk] at hp
    omega
  · rw [if_neg hk] at hp
    omega

/-- Distinct rows of the same split are disjoint. -/
theorem rowRect_disjoint {r : Rect} {k i j : Nat} (hij : i < j) (hjk : j < k) :
    Rect.Disjoint (rowRect r k i) (rowRect r k j) := by
  intro p hp
  obtain ⟨hpi, hpj⟩ := hp
  have hik : i < k := Nat.lt_trans hij hjk
  have hik1 : i + 1 ≠ k := by omega
  rw [mem_rowRect hik, if_neg hik1] at hpi
  rw [mem_rowRect hjk] at hpj
  have hmono : (i + 1) * (r.h / k) ≤ j * (r.h / k) :=
    Nat.mul_le_mul_right _ (by omega)
  omega

/-- The rows of a split of `r` cover exactly `r`. -/
theorem splitRows_cover {r : Rect} {k : Nat} (hk : k ≠ 0) (p : Nat × Nat) :
    (∃ s ∈ splitRows r k, Rect.Mem p s) ↔ Rect.Mem p r := by
  constructor
  · rintro ⟨s, hs, hmem⟩
    simp only [splitRows, List.mem_map, List.mem_range] at hs
    obtain ⟨i, hik, rfl⟩ := hs
    exact rowRect_subset hik p hmem
  · intro hp
    obtain ⟨hx1, hx2, hy1, hy2⟩ := hp
    by_cases hq : r.h / k = 0
    · refine ⟨rowRect r k (k - 1), ?_, ?_⟩
      · simp only [splitRows, List.mem_map, List.mem_range]
        exact ⟨k - 1, by omega, rfl⟩
      · rw [mem_rowRect (by omega), if_pos (by omega), hq]
        omega
    · obtain ⟨t, ht⟩ : ∃ t, p.2 = r.y + t := ⟨p.2 - r.y, by omega⟩
      have hik : min (t / (r.h / k)) (k - 1) < k := by omega
      have hlow : min (t / (r.h / k)) (k - 1) * (r.h / k) ≤ t :=
        le_trans (Nat.mul_le_mul_right _ (min_le_left _ _)) (Nat.div_mul_le_self t _)
      refine ⟨rowRect r k (min (t / (r.h / k)) (k - 1)), ?_, ?_⟩
      · simp only [splitRows, List.mem_map, List.mem_range]
        exact ⟨_, hik, rfl⟩
      · rw [mem_rowRect hik]
        refine ⟨hx1, hx2, by omega, ?_⟩
        by_cases hk1 : min (t / (r.h / k)) (k - 1) + 1 = k
        · rw [if_pos hk1]
          omega
        · rw [if_neg hk1]
          have hi : min (t / (r.h / k)) (k - 1) = t / (r.h / k) := by omega
          have hub : t < (t / (r.h / k) + 1) * (r.h / k) := by
            have hmod := Nat.div_add_mod t (r.h / k)
            have hmlt : t % (r.h / k) < r.h / k := Nat.mod_lt _ (Nat.pos_of_ne_zero hq)
            have hexp : (t / (r.h / k) + 1) * (r.h / k) =
                (r.h / k) * (t / (r.h / k)) + r.h / k := by ring
            omega
          rw [hi, ht]
          exact Nat.add_lt_add_left hub r.y

/-- The rows of a split are pairwise disjoint. -/
theorem splitRows_pairwise (r : Rect) (k : Nat) :
    (splitRows r k).Pairwise Rect.Disjoint := by
  rw [List.pairwise_iff_getElem]
  intro i j hi hj hij
  rw [splitRows_length] at hi hj
  simp only [splitRows, List.getElem_map, List.getElem_range]
  exact rowRect_disjoint hij hj

theorem mem_splitRows_subset {r : Rect} {k : Nat} {s : Rect}
    (hs : s ∈ splitRows r k) (p : Nat × Nat) (hp : Rect.Mem p s) : Rect.Mem p r := by
  simp only [splitRows, List.mem_map, List.mem_range] at hs
  obtain ⟨i, hik, rfl⟩ := hs
  exact rowRect_subset hik p hp

/-! ### The side-stack and bottom-stack layouts -/

/-- Modelled from the spec: the split fraction is clamped to `[0, 1]` and
applied to the screen width to obtain the width of the main area. -/
def mainWidth (f : ℚ) (w : Nat) : Nat := ⌊max 0 (min 1 f) * (w : ℚ)⌋₊

/-- The main (left) column of the screen, at most the whole width. -/
def mainRegion (r : Rect) (mw : Nat) : Rect :=
  ⟨r.x, r.y, min mw r.w, r.h⟩

/-- The stack (right) column of the screen: everything right of the main
column. -/
def stackRegion (r : Rect) (mw : Nat) : Rect :=
  ⟨r.x + min mw r.w, r.y, r.w - min mw r.w, r.h⟩

theorem main_stack_disjoint (r : Rect) (mw : Nat) :
    Rect.Disjoint (mainRegion r mw) (stackRegion r mw) := by
  intro p hp
  obtain ⟨h1, h2⟩ := hp
  simp only [Rect.Mem, mainRegion, stackRegion] at h1 h2
  omega

theorem main_stack_cover (r : Rect) (mw : Nat) (p : Nat × Nat) :
    Rect.Mem p r ↔ Rect.Mem p (mainRegion r mw) ∨ Rect.Mem p (stackRegion r mw) := by
  simp only [Rect.Mem, mainRegion, stackRegion]
  omega

/-- Modelled from the spec: the rectangles produced by `side_stack` for `n`
clients: the first `min maxMain n` clients tile as rows of the main column,
the rest as rows of the stack column; with no stack clients (or no main
clients) everything tiles the full screen. -/
def sideRects (n maxMain : Nat) (frac : ℚ) (scr : Rect) : List Rect :=
  let m := min maxMain n
  if m = 0 ∨ m = n then splitRows scr n
  else
    let mw := mainWidth frac scr.w
    splitRows (mainRegion scr mw) m ++ splitRows (stackRegion scr mw) (n - m)

/-- Modelled from the spec: the side-stack layout function.  Clients keep
their input order; the main-area count and split fraction are clamped. -/
def side_stack {α : Type} (cs : List α) (maxMain : Nat) (frac : ℚ) (scr : Rect) :
    List (α × Rect) :=
  cs.zip (sideRects cs.length maxMain frac scr)

/-- Modelled from the spec: the bottom-stack layout is the same split with
the two axes swapped (main area on top). -/
def bottom_stack {α : Type} (cs : List α) (maxMain : Nat) (frac : ℚ) (scr : Rect) :
    List (α × Rect) :=
  (side_stack cs maxMain frac scr.transpose).map fun p => (p.1, p.2.transpose)

theorem sideRects_length (n maxMain : Nat) (frac : ℚ) (scr : Rect) :
    (sideRects n maxMain frac scr).length = n := by
  unfold sideRects
  dsimp
  split
  · exact splitRows_length _ _
  · rw [List.length_append, splitRows_length, splitRows_length]
    omega

theorem sideRects_pairwise (n maxMain : Nat) (frac : ℚ) (scr : Rect) :
    (sideRects n maxMain frac scr).Pairwise Rect.Disjoint := by
  unfold sideRects
  dsimp
  split
  · exact splitRows_pairwise _ _
  · rw [List.pairwise_append]
    refine ⟨splitRows_pairwise _ _, splitRows_pairwise _ _, ?_⟩
    intro a ha b hb p hp
    exact main_stack_disjoint scr (mainWidth frac scr.w) p
      ⟨mem_splitRows_subset ha p hp.1, mem_splitRows_subset hb p hp.2⟩

theorem sideRects_cover {n : Nat} (maxMain : Nat) (frac : ℚ) (scr : Rect)
    (hn : n ≠ 0) (p : Nat × Nat) :
    (∃ s ∈ sideRects n maxMain frac scr, Rect.Mem p s) ↔ Rect.Mem p scr := by
  unfold sideRects
  dsimp
  split
  · exact splitRows_cover hn p
  · rename_i hm
    push_neg at hm
    have h1 : min maxMain n ≠ 0 := hm.1
    have h2 : n - min maxMain n ≠ 0 := by
      have := min_le_right maxMain n
      omega
    constructor
    · rintro ⟨s, hs, hmem⟩
      rw [List.mem_append] at hs
      rcases hs with hs | hs
      · exact (main_stack_cover scr _ p).2 (Or.inl (mem_splitRows_subset hs p hmem))
      · exact (main_stack_cover scr _ p).2 (Or.inr (mem_splitRows_subset hs p hmem))
    · intro hp
      rcases (main_stack_cover scr (mainWidth frac scr.w) p).1 hp with hp' | hp'
      · obtain ⟨s, hs, hmem⟩ := (splitRows_cover h1 p).2 hp'
        exact ⟨s, List.mem_append.2 (Or.inl hs), hmem⟩
      · obtain ⟨s, hs, hmem⟩ := (splitRows_cover h2 p).2 hp'
        exact ⟨s, List.mem_append.2 (Or.inr hs), hmem⟩

theorem side_stack_fst {α : Type} (cs : List α) (maxMain : Nat) (frac : ℚ) (scr : Rect) :
    (side_stack cs maxMain frac scr).map Prod.fst = cs := by
  unfold side_stack
  exact List.map_fst_zip _ _ (by rw [sideRects_length])

theorem side_stack_snd {α : Type} (cs : List α) (maxMain : Nat) (frac : ℚ) (scr : Rect) :
    (side_stack cs maxMain frac scr).map Prod.snd = sideRects cs.length maxMain frac scr := by
  unfold side_stack
  exact List.map_snd_zip _ _ (by rw [sideRects_length])

theorem Rect.transpose_transpose (r : Rect) : r.transpose.transpose = r := rfl

theorem Rect.Disjoint.transpose {a b : Rect} (h : Rect.Disjoint a b) :
    Rect.Disjoint a.transpose b.transpose := by
  intro p hp
  exact h (p.2, p.1) ⟨(Rect.mem_transpose p a).1 hp.1, (Rect.mem_transpose p b).1 hp.2⟩

theorem bottom_stack_fst {α : Type} (cs : List α) (maxMain : Nat) (frac : ℚ) (scr : Rect) :
    (bottom_stack cs maxMain frac scr).map Prod.fst = cs := by
  unfold bottom_stack
  rw [List.map_map]
  have h : (Prod.fst ∘ fun p : α × Rect => (p.1, p.2.transpose)) = Prod.fst := rfl
  rw [h, side_stack_fst]

theorem bottom_stack_snd {α : Type} (cs : List α) (maxMain : Nat) (frac : ℚ) (scr : Rect) :
    (bottom_stack cs maxMain frac scr).map Prod.snd
      = (sideRects cs.length maxMain frac scr.transpose).map Rect.transpose := by
  unfold bottom_stack
  rw [List.map_map]
  have h : (Prod.snd ∘ fun p : α × Rect => (p.1, p.2.transpose))
      = Rect.transpose ∘ Prod.snd := rfl
  rw [h, ← List.map_map, side_stack_snd]

theorem length_ne_zero_of_ne_nil {α : Type} {cs : List α} (h : cs ≠ []) : cs.length ≠ 0 :=
  fun h0 => h (List.length_eq_zero.mp h0)

theorem bottom_rects_cover {α : Type} (cs : List α) (maxMain : Nat) (frac : ℚ) (scr : Rect)
    (hne : cs ≠ []) (p : Nat × Nat) :
    (∃ s ∈ (bottom_stack cs maxMain frac scr).map Prod.snd, Rect.Mem p s) ↔ Rect.Mem p scr := by
  rw [bottom_stack_snd]
  have hn : cs.length ≠ 0 := length_ne_zero_of_ne_nil hne
  constructor
  · rintro ⟨s, hs, hmem⟩
    rw [List.mem_map] at hs
    obtain ⟨t, ht, rfl⟩ := hs
    have hc := (sideRects_cover maxMain frac scr.transpose hn (p.2, p.1)).1
      ⟨t, ht, (Rect.mem_transpose p t).1 hmem⟩
    simpa using (Rect.mem_transpose (p.2, p.1) scr).1 hc
  · intro hp
    have hc : Rect.Mem (p.2, p.1) scr.transpose :=
      (Rect.mem_transpose (p.2, p.1) scr).2 (by simpa using hp)
    obtain ⟨t, ht, hmem⟩ := (sideRects_cover maxMain frac scr.transpose hn (p.2, p.1)).2 hc
    exact ⟨t.transpose, List.mem_map.2 ⟨t, ht, rfl⟩, (Rect.mem_transpose p t).2 hmem⟩

/-! ### Protocol commands issued for a computed layout -/

/-- Commands the manager sends through the connection abstraction. -/
inductive Cmd (α : Type) where
  | moveResize (c : α) (r : Rect)
  | close (c : α)
deriving DecidableEq, Repr

/-- The protocol calls issued to apply a computed layout: one move-resize
command per returned rectangle. -/
def layoutCommands {α : Type} (l : List (α × Rect)) : List (Cmd α) :=
  l.map fun p => Cmd.moveResize p.1 p.2

/-- C1: for every non-empty ordered client list, every main-area count and
every split fraction (both clamped inside the layout), `side_stack` and
`bottom_stack` return exactly one rectangle per client in input order, the
rectangles are pairwise non-overlapping, and their union is exactly the
screen rectangle: no uncovered screen area and no area outside the screen. -/
theorem C1_side_bottom_stack_tile_screen {α : Type} (cs : List α) (maxMain : Nat)
    (frac : ℚ) (scr : Rect) (hne : cs ≠ []) :
    ((side_stack cs maxMain frac scr).map Prod.fst = cs
      ∧ ((side_stack cs maxMain frac scr).map Prod.snd).Pairwise Rect.Disjoint
      ∧ ∀ p : Nat × Nat,
          (∃ s ∈ (side_stack cs maxMain frac scr).map Prod.snd, Rect.Mem p s)
            ↔ Rect.Mem p scr)
    ∧ ((bottom_stack cs maxMain frac scr).map Prod.fst = cs
      ∧ ((bottom_stack cs maxMain frac scr).map Prod.snd).Pairwise Rect.Disjoint
      ∧ ∀ p : Nat × Nat,
          (∃ s ∈ (bottom_stack cs maxMain frac scr).map Prod.snd, Rect.Mem p s)
            ↔ Rect.Mem p scr) := by
  have hn : cs.length ≠ 0 := length_ne_zero_of_ne_nil hne
  refine ⟨⟨side_stack_fst cs maxMain frac scr, ?_, ?_⟩,
    bottom_stack_fst cs maxMain frac scr, ?_, bottom_rects_cover cs maxMain frac scr hne⟩
  · rw [side_stack_snd]
    exact sideRects_pairwise _ _ _ _
  · intro p
    rw [side_stack_snd]
    exact sideRects_cover maxMain frac scr hn p
  · rw [bottom_stack_snd]
    exact (sideRects_pairwise _ _ _ _).map _ fun a b hab => hab.transpose

theorem C1_witness :
    ([0, 1, 2] : List Nat) ≠ []
      ∧ (side_stack ([0, 1, 2] : List Nat) 1 (11 / 20 : ℚ) ⟨0, 0, 100, 60⟩).map Prod.fst
          = [0, 1, 2] :=
  ⟨by decide,
    (C1_side_bottom_stack_tile_screen [0, 1, 2] 1 (11 / 20 : ℚ) ⟨0, 0, 100, 60⟩
      (by decide)).1.1⟩

/-- Modelled from the spec: the paper layout: the focused client occupies
most of the screen and the other clients are stacked beside it as thin
strips; one rectangle per client. -/
def paper {α : Type} (cs : List α) (focused : Nat) (scr : Rect) : List (α × Rect) :=
  let n := cs.length
  let strip := scr.w / (2 * n)
  cs.enum.map fun p =>
    (p.2,
      if p.1 = focused then ⟨scr.x + p.1 * strip, scr.y, scr.w - (n - 1) * strip, scr.h⟩
      else ⟨scr.x + p.1 * strip, scr.y, strip, scr.h⟩)

theorem paper_length {α : Type} (cs : List α) (focused : Nat) (scr : Rect) :
    (paper cs focused scr).length = cs.length := by
  simp [paper]

/-- Modelled from the spec: the floating layout is the identity: the engine
computes no geometry and each client keeps whatever placement was last
explicitly set for it. -/
def floating_layout {α : Type} (placed : List (α × Rect)) : List (α × Rect) :=
  placed

/-- C8: with zero clients every configured layout variant - side-stack,
bottom-stack, paper and floating - returns the empty rectangle list and the
manager issues no protocol calls; when the main count is at least the client
count, every client is tiled as a main-area row of the whole screen and the
stack area holds no client. -/
theorem C8_layout_edge_cases {α : Type} (maxMain : Nat) (frac : ℚ) (scr : Rect)
    (cs : List α) (focused : Nat) (hall : cs.length ≤ maxMain) :
    side_stack ([] : List α) maxMain frac scr = []
    ∧ bottom_stack ([] : List α) maxMain frac scr = []
    ∧ layoutCommands (side_stack ([] : List α) maxMain frac scr) = []
    ∧ layoutCommands (bottom_stack ([] : List α) maxMain frac scr) = []
    ∧ (side_stack cs maxMain frac scr).map Prod.snd = splitRows scr cs.length
    ∧ (bottom_stack cs maxMain frac scr).map Prod.snd
        = (splitRows scr.transpose cs.length).map Rect.transpose
    ∧ cs.length - min maxMain cs.length = 0
    ∧ paper ([] : List α) focused scr = []
    ∧ layoutCommands (paper ([] : List α) focused scr) = []
    ∧ floating_layout ([] : List (α × Rect)) = []
    ∧ layoutCommands (floating_layout ([] : List (α × Rect))) = [] := by
  have hmin : min maxMain cs.length = cs.length := min_eq_right hall
  have hrects : ∀ s : Rect, sideRects cs.length maxMain frac s = splitRows s cs.length := by
    intro s
    unfold sideRects
    dsimp
    rw [hmin, if_pos (Or.inr rfl)]
  refine ⟨rfl, rfl, rfl, rfl, ?_, ?_, by omega, rfl, rfl, rfl, rfl⟩
  · rw [side_stack_snd, hrects]
  · rw [bottom_stack_snd, hrects]

theorem C8_witness :
    ([5, 7] : List Nat).length ≤ 3
      ∧ (side_stack ([5, 7] : List Nat) 3 (1 / 2 : ℚ) ⟨0, 0, 10, 10⟩).map Prod.snd
          = splitRows ⟨0, 0, 10, 10⟩ ([5, 7] : List Nat).length :=
  ⟨by decide,
    (C8_layout_edge_cases 3 (1 / 2 : ℚ) ⟨0, 0, 10, 10⟩ [5, 7] 0 (by decide)).2.2.2.2.1⟩

/-! ### Workspace state model -/

/-- Modelled from the spec: a workspace holds an ordered client list (window
ids), a focus index, and its independently tracked layout selection and
layout parameters. -/
structure Workspace where
  clients : List Nat
  focused : Nat
  layoutIdx : Nat
  nMain : Nat
  mainFrac : ℚ
deriving DecidableEq, Repr

/-- Cycle direction, `Forward` / `Backward` in the configuration. -/
inductive Direction where
  | forward
  | backward
deriving DecidableEq, Repr

/-- The opposite direction. -/
def Direction.rev : Direction → Direction
  | .forward => .backward
  | .backward => .forward

/-- The neighbouring index in the given direction, wrapping modulo `n`. -/
def neighbourIdx (d : Direction) (n i : Nat) : Nat :=
  match d with
  | .forward => (i + 1) % n
  | .backward => (i + (n - 1)) % n

/-- The neighbouring client index in the given direction, wrapping around the
client list (the configured layouts all allow wrapping). -/
def Workspace.neighbour (w : Workspace) (d : Direction) : Nat :=
  neighbourIdx d w.clients.length w.focused

/-- Modelled from the spec: `cycle_client` moves focus to the neighbouring
client in the active workspace's order; a no-op when the workspace has at
most one client; nothing but the focus index changes. -/
def cycle_client (d : Direction) (w : Workspace) : Workspace :=
  if w.clients.length ≤ 1 then w else { w with focused := w.neighbour d }

/-- Swap the entries at positions `i` and `j` of a list. -/
def swapIdx {α : Type} (l : List α) (i j : Nat) : List α :=
  match l[i]?, l[j]? with
  | some a, some b => (l.set i b).set j a
  | _, _ => l

/-- Modelled from the spec: `drag_client` swaps the focused client with its
neighbour in the given direction; focus follows the dragged client. -/
def drag_client (d : Direction) (w : Workspace) : Workspace :=
  if w.clients.length ≤ 1 then w
  else
    { w with clients := swapIdx w.clients w.focused (w.neighbour d),
             focused := w.neighbour d }

theorem add_one_sub_one_mod {n i : Nat} (hi : i < n) :
    ((i + 1) % n + (n - 1)) % n = i := by
  rw [Nat.mod_add_mod]
  have he : i + 1 + (n - 1) = i + n := by omega
  rw [he, Nat.add_mod_right]
  exact Nat.mod_eq_of_lt hi

theorem sub_one_add_one_mod {n i : Nat} (hi : i < n) :
    ((i + (n - 1)) % n + 1) % n = i := by
  rw [Nat.mod_add_mod]
  have he : i + (n - 1) + 1 = i + n := by omega
  rw [he, Nat.add_mod_right]
  exact Nat.mod_eq_of_lt hi

theorem swapIdx_length {α : Type} (l : List α) (i j : Nat) :
    (swapIdx l i j).length = l.length := by
  unfold swapIdx
  split
  · simp
  · rfl

theorem swapIdx_swapIdx {α : Type} {l : List α} {i j : Nat}
    (hi : i < l.length) (hj : j < l.length) :
    swapIdx (swapIdx l i j) j i = l := by
  unfold swapIdx
  rw [List.getElem?_eq_getElem hi, List.getElem?_eq_getElem hj]
  dsimp only
  have h1 : ((l.set i l[j]).set j l[i])[j]? = some l[i] := by
    rw [List.getElem?_set]
    simp [hj]
  have h2 : ((l.set i l[j]).set j l[i])[i]? = some l[j] := by
    by_cases hij : j = i
    · subst hij
      rw [List.getElem?_set]
      simp [hj]
    · rw [List.getElem?_set_ne hij, List.getElem?_set]
      simp [hi]
  rw [h1, h2]
  dsimp only
  apply List.ext_getElem?
  intro n
  simp only [List.getElem?_set, List.length_set]
  by_cases hni : n = i
  · subst hni
    by_cases hnj : j = n <;> simp [hnj, hi, List.getElem?_eq_getElem, hi]
  · by_cases hnj : j = n
    · subst hnj
      simp [Ne.symm hni, hj, List.getElem?_eq_getElem]
    · simp [hnj, Ne.symm hni, fun h : i = n => hni h.symm]

/-- The focus invariant: a non-trivial workspace's focus index is in range. -/
def Workspace.Inv (w : Workspace) : Prop :=
  w.clients.length ≤ 1 ∨ w.focused < w.clients.length

instance (w : Workspace) : Decidable w.Inv := by
  unfold Workspace.Inv; infer_instance

theorem neighbourIdx_lt (d : Direction) {n : Nat} (i : Nat) (hn : 0 < n) :
    neighbourIdx d n i < n := by
  cases d <;> exact Nat.mod_lt _ hn

theorem neighbourIdx_cancel (d : Direction) {n i : Nat} (hi : i < n) :
    neighbourIdx d.rev n (neighbourIdx d n i) = i := by
  cases d
  · exact add_one_sub_one_mod hi
  · exact sub_one_add_one_mod hi

/-- C4: on any workspace satisfying the focus invariant, cycling focus
forward then backward restores the original state (in particular the
originally focused client); cycling changes nothing but the focus index;
and with at most one client cycling is a no-op. -/
theorem C4_cycle_client_inverse (w : Workspace) (hinv : w.Inv) :
    cycle_client .backward (cycle_client .forward w) = w
    ∧ (∀ d, (cycle_client d w).clients = w.clients
        ∧ (cycle_client d w).layoutIdx = w.layoutIdx
        ∧ (cycle_client d w).nMain = w.nMain
        ∧ (cycle_client d w).mainFrac = w.mainFrac)
    ∧ (w.clients.length ≤ 1 → ∀ d, cycle_client d w = w) := by
  refine ⟨?_, ?_, ?_⟩
  · by_cases hlen : w.clients.length ≤ 1
    · have h1 : cycle_client .forward w = w := by rw [cycle_client, if_pos hlen]
      rw [h1, cycle_client, if_pos hlen]
    · have hf : w.focused < w.clients.length := by
        rcases hinv with h | h
        · omega
        · exact h
      have h1 : cycle_client .forward w = { w with focused := w.neighbour .forward } := by
        rw [cycle_client, if_neg hlen]
      rw [h1, cycle_client]
      rw [if_neg (show ¬ (({ w with focused := w.neighbour .forward } :
        Workspace).clients.length ≤ 1) from hlen)]
      have h2 : ({ w with focused := w.neighbour .forward } :
          Workspace).neighbour .backward = w.focused := by
        show neighbourIdx .backward w.clients.length (neighbourIdx .forward
          w.clients.length w.focused) = w.focused
        exact neighbourIdx_cancel .forward hf
      rw [h2]
  · intro d
    unfold cycle_client
    split <;> simp
  · intro hlen d
    rw [cycle_client, if_pos hlen]

theorem C4_witness :
    (⟨[3, 4, 5], 1, 0, 1, 1 / 2⟩ : Workspace).Inv
      ∧ cycle_client .backward (cycle_client .forward ⟨[3, 4, 5], 1, 0, 1, 1 / 2⟩)
          = (⟨[3, 4, 5], 1, 0, 1, 1 / 2⟩ : Workspace) :=
  ⟨by decide, (C4_cycle_client_inverse ⟨[3, 4, 5], 1, 0, 1, 1 / 2⟩ (by decide)).1⟩

theorem drag_client_inv_preserved (d : Direction) (w : Workspace) (h : w.Inv) :
    (drag_client d w).Inv := by
  by_cases hlen : w.clients.length ≤ 1
  · rw [drag_client, if_pos hlen]
    exact h
  · have h1 : drag_client d w =
        { w with clients := swapIdx w.clients w.focused (w.neighbour d),
                 focused := w.neighbour d } := by
      rw [drag_client, if_neg hlen]
    rw [h1]
    right
    show w.neighbour d < (swapIdx w.clients w.focused (w.neighbour d)).length
    rw [swapIdx_length]
    exact neighbourIdx_lt d _ (by omega)

/-- A single drag in one direction is undone by a single drag in the
opposite direction. -/
theorem drag_client_cancel (d : Direction) (w : Workspace) (h : w.Inv) :
    drag_client d.rev (drag_client d w) = w := by
  by_cases hlen : w.clients.length ≤ 1
  · have h1 : drag_client d w = w := by rw [drag_client, if_pos hlen]
    rw [h1, drag_client, if_pos hlen]
  · have hf : w.focused < w.clients.length := by
      rcases h with h | h
      · omega
      · exact h
    have hj : w.neighbour d < w.clients.length := neighbourIdx_lt d _ (by omega)
    have h1 : drag_client d w =
        { w with clients := swapIdx w.clients w.focused (w.neighbour d),
                 focused := w.neighbour d } := by
      rw [drag_client, if_neg hlen]
    have hlen2 : ¬ (({ w with clients := swapIdx w.clients w.focused (w.neighbour d),
                              focused := w.neighbour d } : Workspace).clients.length ≤ 1) := by
      show ¬ ((swapIdx w.clients w.focused (w.neighbour d)).length ≤ 1)
      rw [swapIdx_length]
      exact hlen
    rw [h1, drag_client, if_neg hlen2]
    have h2 : ({ w with clients := swapIdx w.clients w.focused (w.neighbour d),
                        focused := w.neighbour d } : Workspace).neighbour d.rev = w.focused := by
      show neighbourIdx d.rev (swapIdx w.clients w.focused (w.neighbour d)).length
        (w.neighbour d) = w.focused
      rw [swapIdx_length]
      exact neighbourIdx_cancel d hf
    rw [h2]
    have h3 : swapIdx (swapIdx w.clients w.focused (w.neighbour d))
        (w.neighbour d) w.focused = w.clients := swapIdx_swapIdx hf hj
    show ({ w with
              clients := swapIdx (swapIdx w.clients w.focused (w.neighbour d)) (w.neighbour d)
                w.focused,
              focused := w.focused } : Workspace) = w
    rw [h3]

/-- C5: on any workspace satisfying the focus invariant, dragging the focused
client `k` times in one direction and then `k` times in the reverse
direction restores the original workspace, in particular its client order. -/
theorem C5_drag_client_inverse (w : Workspace) (k : Nat) (hinv : w.Inv) :
    (drag_client .backward)^[k] ((drag_client .forward)^[k] w) = w
    ∧ (drag_client .forward)^[k] ((drag_client .backward)^[k] w) = w := by
  have main : ∀ (d : Direction) (k : Nat) (w : Workspace), w.Inv →
      (drag_client d.rev)^[k] ((drag_client d)^[k] w) = w := by
    intro d k
    induction k with
    | zero => intro w _; rfl
    | succ k ih =>
      intro w hw
      rw [Function.iterate_succ_apply' (drag_client d.rev),
        Function.iterate_succ_apply (drag_client d)]
      rw [ih _ (drag_client_inv_preserved d w hw)]
      exact drag_client_cancel d w hw
  exact ⟨main .forward k w hinv, main .backward k w hinv⟩

theorem C5_witness :
    (⟨[3, 4, 5], 0, 0, 1, 1 / 2⟩ : Workspace).Inv
      ∧ (drag_client .backward)^[2]
          ((drag_client .forward)^[2] ⟨[3, 4, 5], 0, 0, 1, 1 / 2⟩)
          = (⟨[3, 4, 5], 0, 0, 1, 1 / 2⟩ : Workspace) :=
  ⟨by decide, (C5_drag_client_inverse ⟨[3, 4, 5], 0, 0, 1, 1 / 2⟩ 2 (by decide)).1⟩

/-! ### Manager state and kill_client -/

/-- The manager's in-memory model: the workspace list and the index of the
active workspace. -/
structure WMState where
  workspaces : List Workspace
  active : Nat
deriving DecidableEq, Repr

/-- The window id of the focused client of the active workspace, if any. -/
def focusedClient (s : WMState) : Option Nat :=
  s.workspaces[s.active]?.bind fun w => w.clients[w.focused]?

/-- The window id `c` belongs to some workspace of the model. -/
def clientPresent (c : Nat) (s : WMState) : Prop :=
  ∃ w ∈ s.workspaces, c ∈ w.clients

instance (c : Nat) (s : WMState) : Decidable (clientPresent c s) := by
  unfold clientPresent; infer_instance

/-- Modelled from the spec: `kill_client` only asks the connection to close
the focused client's window; the in-memory model is left untouched, because
the client is removed only when the corresponding unmapped event arrives. -/
def kill_client (s : WMState) : WMState × List (Cmd Nat) :=
  match focusedClient s with
  | none => (s, [])
  | some c => (s, [Cmd.close c])

/-- Remove the window `c` from a workspace, clamping the focus index. -/
def removeClient (c : Nat) (w : Workspace) : Workspace :=
  let cs := w.clients.filter fun x => x ≠ c
  { w with clients := cs, focused := min w.focused (cs.length - 1) }

/-- Modelled from the spec: on the "unmapped" protocol event for window `c`
the event loop removes the corresponding client from the model. -/
def handleUnmapped (c : Nat) (s : WMState) : WMState :=
  { s with workspaces := s.workspaces.map (removeClient c) }

/-- C2: `kill_client` never mutates the model: the focused client is still
present afterwards and the whole workspace list is unchanged; the only
effect is a close request to the connection.  Removal happens when the
unmapped event for that window is processed. -/
theorem C2_kill_client_removal_is_async (s : WMState) (c : Nat)
    (hc : focusedClient s = some c) :
    (kill_client s).1 = s
    ∧ clientPresent c (kill_client s).1
    ∧ (kill_client s).2 = [Cmd.close c]
    ∧ ¬ clientPresent c (handleUnmapped c (kill_client s).1) := by
  have hk : kill_client s = (s, [Cmd.close c]) := by
    rw [kill_client, hc]
  rw [hk]
  have hpres : clientPresent c s := by
    unfold focusedClient at hc
    cases hw : s.workspaces[s.active]? with
    | none => rw [hw] at hc; exact absurd hc (by simp)
    | some w =>
      rw [hw] at hc
      simp only [Option.some_bind] at hc
      exact ⟨w, List.getElem?_mem hw, List.getElem?_mem hc⟩
  refine ⟨rfl, hpres, rfl, ?_⟩
  rintro ⟨w, hw, hcw⟩
  unfold handleUnmapped at hw
  simp only [List.mem_map] at hw
  obtain ⟨w0, _, rfl⟩ := hw
  unfold removeClient at hcw
  simp only [List.mem_filter] at hcw
  exact absurd hcw.2 (by simp)

theorem C2_witness :
    focusedClient ⟨[⟨[8, 9], 1, 0, 1, 1 / 2⟩], 0⟩ = some 9
      ∧ ¬ clientPresent 9
          (handleUnmapped 9 (kill_client ⟨[⟨[8, 9], 1, 0, 1, 1 / 2⟩], 0⟩).1) :=
  ⟨by decide,
    (C2_kill_client_removal_is_async ⟨[⟨[8, 9], 1, 0, 1, 1 / 2⟩], 0⟩ 9 (by decide)).2.2.2⟩

/-! ### Screens and detect_screens -/

/-- A physical output: its geometry and the index of the workspace it
displays. -/
structure Screen where
  geom : Rect
  wsIdx : Nat
deriving DecidableEq, Repr

/-- Modelled from the spec: `detect_screens` re-queries output geometries and
reconciles the screen list: retained screens keep their workspace, newly
added screens pick up workspaces that are not currently assigned. -/
def detect_screens (numWs : Nat) (old : List Screen) (newGeoms : List Rect) :
    List Screen :=
  let m := min newGeoms.length numWs
  let geoms := newGeoms.take m
  let kept := (old.map Screen.wsIdx).take m
  let fresh := (List.range numWs).filter fun i => decide (i ∉ kept)
  (geoms.zip (kept ++ fresh)).map fun p => ⟨p.1, p.2⟩

theorem map_snd_zip_sublist {α β : Type} :
    ∀ (l₁ : List α) (l₂ : List β), ((l₁.zip l₂).map Prod.snd).Sublist l₂
  | [], _ => by simp
  | _ :: _, [] => by simp
  | a :: l₁, b :: l₂ => by
    simpa using (map_snd_zip_sublist l₁ l₂).cons₂ b

/-- C3: after reconciliation every resulting screen displays a valid
workspace index, and no workspace is displayed on two screens (the workspace
indices of the result are pairwise distinct), provided the old state already
assigned distinct workspaces. -/
theorem C3_detect_screens_invariant (numWs : Nat) (old : List Screen)
    (newGeoms : List Rect) (hold : (old.map Screen.wsIdx).Nodup)
    (hbound : ∀ s ∈ old, s.wsIdx < numWs) :
    ((detect_screens numWs old newGeoms).map Screen.wsIdx).Nodup
    ∧ ∀ s ∈ detect_screens numWs old newGeoms, s.wsIdx < numWs := by
  have hmap : (detect_screens numWs old newGeoms).map Screen.wsIdx
      = ((newGeoms.take (min newGeoms.length numWs)).zip
          (((old.map Screen.wsIdx).take (min newGeoms.length numWs))
            ++ (List.range numWs).filter fun i =>
                decide (i ∉ (old.map Screen.wsIdx).take (min newGeoms.length numWs)))).map
          Prod.snd := by
    unfold detect_screens
    rw [List.map_map]
    rfl
  have hkept : ((old.map Screen.wsIdx).take (min newGeoms.length numWs)).Nodup :=
    (List.take_sublist _ _).nodup hold
  have hwss : (((old.map Screen.wsIdx).take (min newGeoms.length numWs))
      ++ (List.range numWs).filter fun i =>
          decide (i ∉ (old.map Screen.wsIdx).take (min newGeoms.length numWs))).Nodup := by
    rw [List.nodup_append]
    refine ⟨hkept, (List.nodup_range numWs).filter _, ?_⟩
    intro a ha hb
    rw [List.mem_filter] at hb
    exact absurd ha (by simpa using hb.2)
  have hsub := map_snd_zip_sublist
    (newGeoms.take (min newGeoms.length numWs))
    (((old.map Screen.wsIdx).take (min newGeoms.length numWs))
      ++ (List.range numWs).filter fun i =>
          decide (i ∉ (old.map Screen.wsIdx).take (min newGeoms.length numWs)))
  constructor
  · rw [hmap]
    exact hwss.sublist hsub
  · intro s hs
    have hmem : s.wsIdx ∈ (detect_screens numWs old newGeoms).map Screen.wsIdx :=
      List.mem_map.2 ⟨s, hs, rfl⟩
    rw [hmap] at hmem
    have hmem2 := hsub.mem hmem
    rw [List.mem_append] at hmem2
    rcases hmem2 with h | h
    · have h2 := (List.take_sublist _ _).mem h
      rw [List.mem_map] at h2
      obtain ⟨s0, hs0, he⟩ := h2
      rw [← he]
      exact hbound s0 hs0
    · rw [List.mem_filter] at h
      exact List.mem_range.1 h.1

theorem C3_witness :
    (([⟨⟨0, 0, 5, 5⟩, 2⟩] : List Screen).map Screen.wsIdx).Nodup
      ∧ (∀ s ∈ ([⟨⟨0, 0, 5, 5⟩, 2⟩] : List Screen), s.wsIdx < 3)
      ∧ ((detect_screens 3 [⟨⟨0, 0, 5, 5⟩, 2⟩]
          [⟨0, 0, 5, 5⟩, ⟨5, 0, 5, 5⟩]).map Screen.wsIdx).Nodup :=
  ⟨by decide, by decide,
    (C3_detect_screens_invariant 3 [⟨⟨0, 0, 5, 5⟩, 2⟩] [⟨0, 0, 5, 5⟩, ⟨5, 0, 5, 5⟩]
      (by decide) (by decide)).1⟩

/-! ### Hook pipeline -/

/-- The outcome of one hook invocation. -/
inductive HookOutcome where
  | ok
  | fail (msg : String)
deriving DecidableEq, Repr

/-- What the event loop records while running a lifecycle point: which hooks
were invoked (in order) and which failures were logged. -/
structure HookRun where
  invoked : List Nat
  logged : List String
deriving DecidableEq, Repr

/-- Modelled from the spec: one hook invocation; a failing hook is caught,
its failure message is appended to the log, and the loop moves on to the
next hook instead of crashing. -/
def runHook (st : HookRun) (h : Nat × HookOutcome) : HookRun :=
  let st1 := { st with invoked := st.invoked ++ [h.1] }
  match h.2 with
  | .ok => st1
  | .fail m => { st1 with logged := st1.logged ++ [m] }

/-- Run every hook registered at a lifecycle point, in registration order. -/
def runHooks (hooks : List (Nat × HookOutcome)) : HookRun :=
  hooks.foldl runHook ⟨[], []⟩

/-- Modelled from the spec: the triggering operation completes after its
hooks have run, whatever their outcomes. -/
def runTrigger {σ : Type} (hooks : List (Nat × HookOutcome)) (op : σ → σ)
    (st : σ) : σ × HookRun :=
  (op st, runHooks hooks)

theorem runHook_invoked (st : HookRun) (h : Nat × HookOutcome) :
    (runHook st h).invoked = st.invoked ++ [h.1] := by
  obtain ⟨id, out⟩ := h
  cases out <;> rfl

theorem runHook_logged (st : HookRun) (h : Nat × HookOutcome) :
    (runHook st h).logged
      = st.logged ++ (match h.2 with | .ok => [] | .fail m => [m]) := by
  obtain ⟨id, out⟩ := h
  cases out
  · simp [runHook]
  · rfl

theorem runHook_foldl (hooks : List (Nat × HookOutcome)) (st : HookRun) :
    (hooks.foldl runHook st).invoked = st.invoked ++ hooks.map Prod.fst
    ∧ (hooks.foldl runHook st).logged
        = st.logged ++ hooks.filterMap
            (fun h => match h.2 with | .ok => none | .fail m => some m) := by
  induction hooks generalizing st with
  | nil => simp
  | cons h hs ih =>
    constructor
    · rw [List.foldl_cons, (ih (runHook st h)).1, runHook_invoked]
      simp
    · rw [List.foldl_cons, (ih (runHook st h)).2, runHook_logged]
      obtain ⟨id, out⟩ := h
      cases out <;> simp [List.filterMap_cons]

/-- C6: a failing hook never aborts the pipeline: every hook registered at a
lifecycle point is invoked, in registration order, whatever the outcomes of
the earlier hooks; failures are only logged; and the triggering operation
still completes. -/
theorem C6_hook_failures_are_contained {σ : Type} (hooks : List (Nat × HookOutcome))
    (op : σ → σ) (st : σ) :
    (runHooks hooks).invoked = hooks.map Prod.fst
    ∧ (runHooks hooks).logged
        = hooks.filterMap (fun h => match h.2 with | .ok => none | .fail m => some m)
    ∧ (runTrigger hooks op st).1 = op st := by
  refine ⟨?_, ?_, rfl⟩
  · have h := (runHook_foldl hooks ⟨[], []⟩).1
    simpa [runHooks] using h
  · have h := (runHook_foldl hooks ⟨[], []⟩).2
    simpa [runHooks] using h

/-! ### The DefaultWorkspace hook of the configuration -/

/-- From src/src/main.rs: the configured terminal program. -/
def myTerminal : String := "st"

/-- From src/src/main.rs: the configured file manager program. -/
def myFileManager : String := "alacritty -e ranger"

/-- From src/src/main.rs lines 132-136: the DefaultWorkspace hook for
workspace "9" is configured with two terminals and the file manager. -/
def defaultWorkspacePrograms : List String :=
  [myTerminal, myTerminal, myFileManager]

/-- Modelled from the spec: when workspace "9" becomes active with zero
clients, the DefaultWorkspace hook spawns its configured programs in order;
in every other case it spawns nothing. -/
def defaultWorkspaceSpawns (wsName : String) (clientCount : Nat) : List String :=
  if wsName = "9" ∧ clientCount = 0 then defaultWorkspacePrograms else []

/-- The spawns accumulated over a sequence of workspace activations, each
given as the activated workspace's name and its client count at that time. -/
def spawnsOfTrace (evs : List (String × Nat)) : List String :=
  (evs.map fun e => defaultWorkspaceSpawns e.1 e.2).flatten

/-- C7: activating workspace "9" with zero clients spawns exactly the two
terminals and the file manager, in that order; any activation while clients
remain spawns nothing; so a trace that switches to "9" once while it is
empty and then again while its three clients remain triggers the three
spawns exactly once. -/
theorem C7_default_workspace_spawns_once (c : Nat) (hc : c ≠ 0) :
    defaultWorkspaceSpawns "9" 0 = [myTerminal, myTerminal, myFileManager]
    ∧ defaultWorkspaceSpawns "9" c = []
    ∧ spawnsOfTrace [("9", 0), ("9", 3), ("9", 3)]
        = [myTerminal, myTerminal, myFileManager] := by
  refine ⟨by decide, ?_, by decide⟩
  rw [defaultWorkspaceSpawns, if_neg]
  exact fun h => hc h.2

theorem C7_witness :
    (3 : Nat) ≠ 0 ∧ defaultWorkspaceSpawns "9" 3 = [] :=
  ⟨by decide, (C7_default_workspace_spawns_once 3 (by decide)).2.1⟩

/-! ### Layout configuration flags (src/src/main.rs lines 85-105) -/

/-- Behavioural flags of a layout, as in the penrose LayoutConf struct. -/
structure LayoutConf where
  floating : Bool
  gapless : Bool
  follow_focus : Bool
  allow_wrapping : Bool
deriving DecidableEq, Repr

/-- Modelled from the spec: `LayoutConf::default()` honours gap settings and
is not re-run on pure focus changes. -/
def LayoutConf.default : LayoutConf :=
  { floating := false, gapless := false, follow_focus := false, allow_wrapping := true }

/-- From src/src/main.rs lines 85-90. -/
def follow_focus_conf : LayoutConf :=
  { floating := false, gapless := true, follow_focus := true, allow_wrapping := true }

/-- A named layout entry of the configuration. -/
structure LayoutSpec where
  symbol : String
  conf : LayoutConf
deriving DecidableEq, Repr

/-- Modelled from the spec: `Layout::floating` builds an identity layout that
computes no geometry and is not re-run on focus changes. -/
def floatingLayout (sym : String) : LayoutSpec :=
  ⟨sym, { LayoutConf.default with floating := true }⟩

/-- From src/src/main.rs lines 100-105: the configured layout list. -/
def configLayouts : List LayoutSpec :=
  [⟨"[side]", LayoutConf.default⟩,
   ⟨"[botm]", LayoutConf.default⟩,
   ⟨"[papr]", follow_focus_conf⟩,
   floatingLayout "[----]"]

/-- Modelled from the spec: a pure focus change re-runs the active layout
only when its follow_focus flag is set; otherwise every window keeps its
geometry. -/
def applyFocusChange (l : LayoutSpec) (recompute : List Rect → List Rect)
    (geoms : List Rect) : List Rect :=
  if l.conf.follow_focus then recompute geoms else geoms

/-- C9: among the configured layouts exactly "[papr]" sets follow_focus, so
a pure focus change leaves every window's geometry unchanged under any other
configured layout. -/
theorem C9_only_paper_follows_focus (l : LayoutSpec) (hl : l ∈ configLayouts) :
    (l.conf.follow_focus = true ↔ l.symbol = "[papr]")
    ∧ (l.symbol ≠ "[papr]" →
        ∀ (recompute : List Rect → List Rect) (geoms : List Rect),
          applyFocusChange l recompute geoms = geoms) := by
  fin_cases hl <;>
    exact ⟨by decide, fun hs recompute geoms => by first | rfl | exact absurd rfl hs⟩

theorem C9_witness :
    (⟨"[side]", LayoutConf.default⟩ : LayoutSpec) ∈ configLayouts
      ∧ ((⟨"[side]", LayoutConf.default⟩ : LayoutSpec).conf.follow_focus = true
          ↔ (⟨"[side]", LayoutConf.default⟩ : LayoutSpec).symbol = "[papr]") :=
  ⟨by decide, (C9_only_paper_follows_focus _ (by decide)).1⟩

/-! ### Workspace keybindings (src/src/main.rs lines 57 and 196-201) -/

/-- From src/src/main.rs line 57: the configured workspace names. -/
def configWorkspaces : List String :=
  ["1", "2", "3", "4", "5", "6", "7", "8", "9"]

/-- Modelled from the spec (penrose helpers::index_selectors): one workspace
index selector per configured workspace. -/
def index_selectors (n : Nat) : List Nat := List.range n

/-- Modelled from the spec: `config.ws_range()` yields the numbers templated
into the workspace key names, one per configured workspace. -/
def ws_range (n : Nat) : List Nat := (List.range n).map (· + 1)

/-- An action a templated workspace keybinding triggers. -/
inductive WsAction where
  | focus_workspace (ix : Nat)
  | client_to_workspace (ix : Nat)
deriving DecidableEq, Repr

/-- A key binding: key name and bound action. -/
structure KeyBinding where
  key : String
  act : WsAction
deriving DecidableEq, Repr

/-- Modelled from the spec: the templated block of gen_keybindings zips the
workspace key range with `index_selectors` over the configured workspaces,
once for focus_workspace and once for client_to_workspace. -/
def templatedBindings : List KeyBinding :=
  ((ws_range configWorkspaces.length).zip
      (index_selectors configWorkspaces.length)).map
    (fun p => ⟨"M-" ++ toString p.1, WsAction.focus_workspace p.2⟩)
  ++ ((ws_range configWorkspaces.length).zip
      (index_selectors configWorkspaces.length)).map
    (fun p => ⟨"M-S-" ++ toString p.1, WsAction.client_to_workspace p.2⟩)

def focusSelector : KeyBinding → Option Nat
  | ⟨_, .focus_workspace i⟩ => some i
  | _ => none

def clientSelector : KeyBinding → Option Nat
  | ⟨_, .client_to_workspace i⟩ => some i
  | _ => none

def wsActionIdx : WsAction → Nat
  | .focus_workspace i => i
  | .client_to_workspace i => i

/-- C10: the templated bindings give each of the nine configured workspaces
exactly one focus_workspace binding and exactly one client_to_workspace
binding, and every generated selector index is within the range of the
configured workspace list. -/
theorem C10_templated_bindings_exact :
    configWorkspaces.length = 9
    ∧ templatedBindings.filterMap focusSelector = List.range configWorkspaces.length
    ∧ templatedBindings.filterMap clientSelector = List.range configWorkspaces.length
    ∧ ∀ b ∈ templatedBindings, wsActionIdx b.act < configWorkspaces.length := by
  exact ⟨rfl, by decide, by decide, by decide⟩

end Penrose
